import Mathlib

/- Verification development for the Riemannian metric core
   (geomstats/geometry/riemannian_metric.py) and the manifold test-case
   framework (geomstats/test/geometry/base.py).  Numeric arrays are embedded
   as functions over Fin with rational entries.  External collaborators that
   are not part of the source files (the numeric backend's matrix inversion,
   autodiff, square root, the ODE integrator, the vector-to-symmetric-matrix
   embedding and the vectorization decorator) are modelled from the
   specification, either as explicit parameters or as definitions whose doc
   comments start with the marker Modelled from the spec. -/

namespace Geomstats

/-- Points, tangent vectors and covectors: numeric vectors of length d. -/
abbrev Vec (d : ℕ) := Fin d → ℚ

/-- dim x dim matrices (metric matrix, cometric matrix). -/
abbrev Mat (d : ℕ) := Fin d → Fin d → ℚ

/-- dim x dim x dim tensors (metric derivative, Christoffel symbols). -/
abbrev Ten3 (d : ℕ) := Fin d → Fin d → Fin d → ℚ

/-- Module-level constant N_STEPS of riemannian_metric.py. -/
def N_STEPS : ℕ := 10

/-- Per-batch-element body of RiemannianMetric.inner_product: aux is the
einsum j,jk->k of tangent_vec_a with the inner-product matrix, and the result
is the einsum k,k-> of aux with tangent_vec_b. -/
def inner_product_elem {d : ℕ} (inner_prod_mat : Mat d)
    (tangent_vec_a tangent_vec_b : Vec d) : ℚ :=
  ∑ k, (∑ j, tangent_vec_a j * inner_prod_mat j k) * tangent_vec_b k

/-- RiemannianMetric.inner_product evaluated at one base point, with the
concrete override metric_matrix supplied as a parameter (it is the abstract
primitive of the class). -/
def inner_product_at {d : ℕ} (metric_matrix : Vec d → Mat d)
    (tangent_vec_a tangent_vec_b base_point : Vec d) : ℚ :=
  inner_product_elem (metric_matrix base_point) tangent_vec_a tangent_vec_b

/-- RiemannianMetric.squared_norm: inner product of a vector with itself. -/
def squared_norm {d : ℕ} (metric_matrix : Vec d → Mat d)
    (vector base_point : Vec d) : ℚ :=
  inner_product_at metric_matrix vector vector base_point

/-- RiemannianMetric.squared_dist: logm is the externally supplied logarithmic
map of the Connection capability, called as logm point base_point. -/
def squared_dist {d : ℕ} (metric_matrix : Vec d → Mat d)
    (logm : Vec d → Vec d → Vec d) (point_a point_b : Vec d) : ℚ :=
  squared_norm metric_matrix (logm point_b point_a) point_a

/-- RiemannianMetric.dist: square root of squared_dist.  sqrtQ is the backend
square-root capability, modelled from the spec as an oracle on rationals. -/
def dist {d : ℕ} (metric_matrix : Vec d → Mat d) (logm : Vec d → Vec d → Vec d)
    (sqrtQ : ℚ → ℚ) (point_a point_b : Vec d) : ℚ :=
  sqrtQ (squared_dist metric_matrix logm point_a point_b)

/-- RiemannianMetric.inner_product_inverse_matrix: the backend matrix
inversion gs.linalg.inv is modelled from the spec as the parameter inv. -/
def inner_product_inverse_matrix {d : ℕ} (inv : Mat d → Mat d)
    (metric_matrix : Vec d → Mat d) (base_point : Vec d) : Mat d :=
  inv (metric_matrix base_point)

/-- RiemannianMetric.inner_product_derivative_matrix: the autodiff Jacobian
autograd.jacobian is modelled from the spec as the parameter jacobian, the
autodiff engine that maps a matrix-valued function to its derivative tensor
(matrix indices first, derivative index last). -/
def inner_product_derivative_matrix {d : ℕ}
    (jacobian : (Vec d → Mat d) → Vec d → Ten3 d)
    (metric_matrix : Vec d → Mat d) (base_point : Vec d) : Ten3 d :=
  jacobian metric_matrix base_point

/-- term_1 of RiemannianMetric.christoffels: einsum im,mkl->ikl of the
cometric matrix with the metric derivative. -/
def term_1 {d : ℕ} (cometric_mat_at_point : Mat d)
    (metric_derivative_at_point : Ten3 d) : Ten3 d :=
  fun i k l => ∑ m, cometric_mat_at_point i m * metric_derivative_at_point m k l

/-- term_2 of RiemannianMetric.christoffels: einsum im,mlk->ilk, the
derivative carrying index layout (m,l,k) and the output layout (i,l,k). -/
def term_2 {d : ℕ} (cometric_mat_at_point : Mat d)
    (metric_derivative_at_point : Ten3 d) : Ten3 d :=
  fun i l k => ∑ m, cometric_mat_at_point i m * metric_derivative_at_point m l k

/-- term_3 of RiemannianMetric.christoffels: the negated einsum im,klm->ikl. -/
def term_3 {d : ℕ} (cometric_mat_at_point : Mat d)
    (metric_derivative_at_point : Ten3 d) : Ten3 d :=
  fun i k l =>
    -(∑ m, cometric_mat_at_point i m * metric_derivative_at_point k l m)

/-- RiemannianMetric.christoffels: 0.5 times the entrywise sum of the three
contraction terms. -/
def christoffels {d : ℕ} (inv : Mat d → Mat d)
    (jacobian : (Vec d → Mat d) → Vec d → Ten3 d)
    (metric_matrix : Vec d → Mat d) (base_point : Vec d) : Ten3 d :=
  let cometric_mat_at_point := inner_product_inverse_matrix inv metric_matrix base_point
  let metric_derivative_at_point :=
    inner_product_derivative_matrix jacobian metric_matrix base_point
  fun i k l =>
    (1 / 2 : ℚ) *
      (term_1 cometric_mat_at_point metric_derivative_at_point i k l
        + term_2 cometric_mat_at_point metric_derivative_at_point i k l
        + term_3 cometric_mat_at_point metric_derivative_at_point i k l)

/-- The flat sequence built by the two nested loops of
RiemannianMetric.dist_pairwise: for each index i, the distances from point i
to each of the points i, i+1, ..., n-1, in order, all appended. -/
def pairwise_dist_list {d : ℕ} (metric_matrix : Vec d → Mat d)
    (logm : Vec d → Vec d → Vec d) (sqrtQ : ℚ → ℚ) :
    List (Vec d) → List ℚ
  | [] => []
  | x :: xs =>
      (x :: xs).map (dist metric_matrix logm sqrtQ x)
        ++ pairwise_dist_list metric_matrix logm sqrtQ xs

/-- Modelled from the spec: helper for the vector-to-symmetric-matrix
embedding (SymmetricMatrices.from_vector, not under src).  Looks up the entry
for upper-triangular position (i, j), i <= j, in the flat row-major sequence
of the upper triangle of an n x n matrix: row 0 occupies the first n slots,
and later rows are reached by dropping a full row and shrinking n. -/
def triu_lookup : List ℚ → ℕ → ℕ → ℕ → ℚ
  | v, _, 0, j => v.getD j 0
  | v, n, i + 1, j => triu_lookup (v.drop n) (n - 1) i (j - 1)

/-- Modelled from the spec: SymmetricMatrices.from_vector (external
capability, section 6) — reconstructs a symmetric n x n matrix from a flat
sequence of length n(n+1)/2 holding the row-major upper-triangular values,
mirrored across the diagonal. -/
def sym_from_vector (v : List ℚ) (n : ℕ) (i j : ℕ) : ℚ :=
  if i ≤ j then triu_lookup v n i j else triu_lookup v n j i

/-- RiemannianMetric.dist_pairwise: flatten the nested-loop distances and
expand them through the vector-to-symmetric-matrix embedding. -/
def dist_pairwise {d : ℕ} (metric_matrix : Vec d → Mat d)
    (logm : Vec d → Vec d → Vec d) (sqrtQ : ℚ → ℚ)
    (point : List (Vec d)) (i j : ℕ) : ℚ :=
  sym_from_vector (pairwise_dist_list metric_matrix logm sqrtQ point)
    point.length i j

/-- Modelled from the spec: the backend maximum gs.amax over a batch of
scalars (the batch is nonempty at every call site in diameter). -/
def amax : List ℚ → ℚ
  | [] => 0
  | x :: xs => xs.foldl max x

/-- RiemannianMetric.diameter: running maximum, initialized at 0.0, over i
from 0 to n-2 of the largest distance from points[i] to points[i+1:]. -/
def diameter {d : ℕ} (metric_matrix : Vec d → Mat d)
    (logm : Vec d → Vec d → Vec d) (sqrtQ : ℚ → ℚ)
    (points : List (Vec d)) : ℚ :=
  (List.range (points.length - 1)).foldl
    (fun diam i =>
      let dist_to_neighbors :=
        (points.drop (i + 1)).map
          (dist metric_matrix logm sqrtQ (points.getD i (fun _ => 0)))
      let dist_to_farthest_neighbor := amax dist_to_neighbors
      max diam dist_to_farthest_neighbor)
    0

/-- Transpose of a matrix, gs.transpose with axes (1, 0). -/
def transpose {d : ℕ} (m : Mat d) : Mat d := fun i j => m j i

/-- The module-level function grad of riemannian_metric.py on unbatched
input (the metric matrix at y_pred has two axes, so axes = (1, 0)):
tangent_vec = log(base_point=y_pred, point=y_true), grad_vec = -2 *
tangent_vec, then the einsum i,ij->i of grad_vec with the transposed
inner-product matrix. -/
def grad {d : ℕ} (logm : Vec d → Vec d → Vec d) (metric_matrix : Vec d → Mat d)
    (y_pred y_true : Vec d) : Vec d :=
  let tangent_vec := logm y_true y_pred
  let grad_vec : Vec d := fun i => -2 * tangent_vec i
  let inner_prod_mat := metric_matrix y_pred
  let t := transpose inner_prod_mat
  fun i => ∑ j, grad_vec i * t i j

/-- The module-level function grad on batched input (the metric matrix
carries a batch axis, so axes = (0, 2, 1): each batch element's matrix is
transposed), every stage acting per batch element. -/
def grad_batched {d : ℕ} (logm : Vec d → Vec d → Vec d)
    (metric_matrix : Vec d → Mat d) (y_pred y_true : List (Vec d)) :
    List (Vec d) :=
  let tangent_vec := List.zipWith (fun yp yt => logm yt yp) y_pred y_true
  let grad_vec := tangent_vec.map (fun v => (fun i => -2 * v i : Vec d))
  let inner_prod_mat := y_pred.map metric_matrix
  let t := inner_prod_mat.map transpose
  List.zipWith (fun gv m => (fun i => ∑ j, gv i * m i j : Vec d)) grad_vec t

/-- Modelled from the spec: an argument of a vectorized operation, either a
single vector or a batch of vectors (the argument-vectorization decorator of
section 6 distinguishes exactly these two layouts for a vector role). -/
inductive BatchArg (d : ℕ) where
  | single (v : Vec d)
  | batch (l : List (Vec d))

/-- Modelled from the spec: the normalization the vectorization decorator
performs on a vector-role argument before execution — an unbatched vector
becomes a batch of one. -/
def normalizeArg {d : ℕ} : BatchArg d → List (Vec d)
  | BatchArg.single v => [v]
  | BatchArg.batch l => l

/-- Modelled from the spec: the backend's standard batch broadcasting for a
binary einsum — a batch of one broadcasts across the other operand's batch,
and equal-length batches combine elementwise. -/
def broadcast2 {α β γ : Type} (f : α → β → γ) : List α → List β → List γ
  | [x], ys => ys.map (f x)
  | xs, [y] => xs.map (fun x => f x y)
  | xs, ys => List.zipWith f xs ys

/-- RiemannianMetric.inner_product with the batch plumbing of its body: the
inner-product matrix is lifted to a batch of one (gs.to_ndarray to ndim 3),
the einsum j,jk->k and the einsum k,k-> broadcast over the batch axis, and
the result is reshaped to carry an explicit batch axis with a trailing axis
of length one (gs.to_ndarray to ndim 2, axis 1). -/
def inner_product {d : ℕ} (metric_matrix : Vec d → Mat d)
    (tangent_vec_a tangent_vec_b : BatchArg d) (base_point : Vec d) :
    List (List ℚ) :=
  let inner_prod_mat : List (Mat d) := [metric_matrix base_point]
  let a := normalizeArg tangent_vec_a
  let b := normalizeArg tangent_vec_b
  let aux :=
    broadcast2 (fun (v : Vec d) (g : Mat d) => (fun k => ∑ j, v j * g j k : Vec d))
      a inner_prod_mat
  let ip := broadcast2 (fun (u w : Vec d) => ∑ k, u k * w k) aux b
  ip.map (fun s => [s])

/-- RiemannianCometric.inner_coproduct: vector_2 is the einsum ij,j->i of the
cometric matrix with covector_2, and the result is the einsum i,i-> of
covector_1 with vector_2.  cometric_matrix is the abstract primitive of the
class, supplied as a parameter. -/
def inner_coproduct {d : ℕ} (cometric_matrix : Vec d → Mat d)
    (covector_1 covector_2 base_point : Vec d) : ℚ :=
  let vector_2 : Vec d := fun i => ∑ j, cometric_matrix base_point i j * covector_2 j
  ∑ i, covector_1 i * vector_2 i

/-- RiemannianCometric.hamiltonian: half the inner coproduct of the momentum
with itself at the position. -/
def hamiltonian {d : ℕ} (cometric_matrix : Vec d → Mat d)
    (state : Vec d × Vec d) : ℚ :=
  (1 / 2 : ℚ) * inner_coproduct cometric_matrix state.2 state.2 state.1

/-- Modelled from the spec: the backend capability gs.autograd.value_and_grad
(section 6) — for a scalar function of a paired-tuple argument it returns the
pair of the function's value and its gradient with respect to the whole
argument.  The gradient function itself is the autodiff engine's output and
is supplied here as the parameter fgrad. -/
def value_and_grad {α : Type} (f : α → ℚ) (fgrad : α → α) : α → ℚ × α :=
  fun x => (f x, fgrad x)

/-- RiemannianCometric.Hamiltonian_equation as written in the source: the
pair returned by value_and_grad is destructured into H_q and H_p, and
(H_p, -H_q) is returned.  Since value_and_grad returns (value, gradient),
H_q is the scalar Hamiltonian value and H_p is the full state gradient, so
the result type is (state gradient, negated scalar value). -/
def Hamiltonian_equation {d : ℕ} (cometric_matrix : Vec d → Mat d)
    (fgrad : Vec d × Vec d → Vec d × Vec d) (position momentum : Vec d) :
    (Vec d × Vec d) × ℚ :=
  let state := (position, momentum)
  let vg := value_and_grad (hamiltonian cometric_matrix) fgrad state
  let H_q := vg.1
  let H_p := vg.2
  (H_p, -H_q)

/-- Modelled from the spec: the two named schemes of the external numeric ODE
integrator (section 6). -/
inductive Scheme where
  | euler
  | rk4

/-- Modelled from the spec: the explicit first-order scheme of the external
integrator — one step advances the (position, momentum) state by dt times the
vector field evaluated there. -/
def euler_step {d : ℕ} (force : Vec d → Vec d → Vec d × Vec d)
    (state : Vec d × Vec d) (dt : ℚ) : Vec d × Vec d :=
  state + dt • force state.1 state.2

/-- Modelled from the spec: the fourth-order Runge-Kutta scheme of the
external integrator. -/
def rk4_step {d : ℕ} (force : Vec d → Vec d → Vec d × Vec d)
    (state : Vec d × Vec d) (dt : ℚ) : Vec d × Vec d :=
  let k1 := force state.1 state.2
  let s2 := state + (dt / 2) • k1
  let k2 := force s2.1 s2.2
  let s3 := state + (dt / 2) • k2
  let k3 := force s3.1 s3.2
  let s4 := state + dt • k3
  let k4 := force s4.1 s4.2
  state + (dt / 6) • (k1 + (2 : ℚ) • k2 + (2 : ℚ) • k3 + k4)

/-- Modelled from the spec: the external numeric ODE integrator (section 6) —
given a vector field on (position, momentum) states, an initial state, a
fixed step count and a named scheme, it returns the full discretized
trajectory, as the pair of the position trajectory and the momentum
trajectory. -/
def integrate {d : ℕ} (function : Vec d → Vec d → Vec d × Vec d)
    (initial_state : Vec d × Vec d) (n_steps : ℕ) (step : Scheme) :
    List (Vec d) × List (Vec d) :=
  let dt : ℚ := 1 / (n_steps : ℚ)
  let step_function : Vec d × Vec d → Vec d × Vec d :=
    match step with
    | Scheme.euler => fun s => euler_step function s dt
    | Scheme.rk4 => fun s => rk4_step function s dt
  let states :=
    (List.range n_steps).foldl
      (fun traj _ => traj ++ [step_function (traj.getLastD initial_state)])
      [initial_state]
  (states.map Prod.fst, states.map Prod.snd)

/-- RiemannianCometric.exp: form the initial state (base_point,
cotangent_vec), integrate for n_steps steps with the chosen scheme, and
return the last entry of the returned position trajectory.  The source
passes self.Hamiltonian_equation as the integrand; because that function
does not have the state-vector-field type the integrator contract requires
(its value is a (state gradient, scalar) pair), the integrand is abstracted
here as the parameter force of the contractual type. -/
def exp {d : ℕ} (force : Vec d → Vec d → Vec d × Vec d)
    (cotangent_vec base_point : Vec d) (n_steps : ℕ) (step : Scheme) : Vec d :=
  let initial_state := (base_point, cotangent_vec)
  let flow := (integrate force initial_state n_steps step).1
  flow.getLastD base_point

/-- ManifoldTestCase.test_not_belongs, shape of one constructed point:
shape = list(self.space.shape) followed by shape[0] += 1 — the declared
point shape with its first axis enlarged by one. -/
def not_belongs_point_shape (space_shape : List ℕ) : List ℕ :=
  match space_shape with
  | [] => []
  | s0 :: rest => (s0 + 1) :: rest

/-- ManifoldTestCase.test_not_belongs, full shape of the constructed all-ones
array: n_batch = [n_points] if n_points else [], prepended to the mutated
point shape. -/
def not_belongs_full_shape (space_shape : List ℕ) (n_points : ℕ) : List ℕ :=
  (if n_points = 0 then [] else [n_points]) ++ not_belongs_point_shape space_shape

/-- ManifoldTestCase.test_not_belongs, the expected membership result:
gs.zeros(n_points, dtype=bool), an all-false vector asserted against the
membership predicate's output. -/
def not_belongs_expected (n_points : ℕ) : List Bool :=
  List.replicate n_points false

/-- Error kinds surfaced by the metric core; the base-class primitives raise
NotImplementedError. -/
inductive GeomError where
  | notImplementedError (msg : String)

/-- The message of RiemannianMetric.metric_matrix, two adjacent string
literals in the source. -/
def metric_matrix_msg : String :=
  "The computation of the metric matrix" ++ " is not implemented."

/-- The message of RiemannianCometric.cometric_matrix, two adjacent string
literals in the source. -/
def cometric_matrix_msg : String :=
  "The computation of the cometric matrix" ++ " is not implemented."

/-- RiemannianMetric.metric_matrix without a concrete override: raises
NotImplementedError. -/
def metric_matrix_base {d : ℕ} (_base_point : Vec d) : Except GeomError (Mat d) :=
  Except.error (GeomError.notImplementedError metric_matrix_msg)

/-- RiemannianMetric.inner_product_inverse_matrix on the base class: inverts
the result of the abstract primitive, so the primitive's error propagates. -/
def inner_product_inverse_matrix_base {d : ℕ} (inv : Mat d → Mat d)
    (base_point : Vec d) : Except GeomError (Mat d) := do
  let metric_matrix ← metric_matrix_base base_point
  pure (inv metric_matrix)

/-- RiemannianMetric.inner_product on the base class. -/
def inner_product_base {d : ℕ}
    (tangent_vec_a tangent_vec_b base_point : Vec d) : Except GeomError ℚ := do
  let inner_prod_mat ← metric_matrix_base base_point
  pure (inner_product_elem inner_prod_mat tangent_vec_a tangent_vec_b)

/-- RiemannianMetric.squared_norm on the base class. -/
def squared_norm_base {d : ℕ} (vector base_point : Vec d) : Except GeomError ℚ :=
  inner_product_base vector vector base_point

/-- RiemannianMetric.squared_dist on the base class (logm is the external
logarithmic map). -/
def squared_dist_base {d : ℕ} (logm : Vec d → Vec d → Vec d)
    (point_a point_b : Vec d) : Except GeomError ℚ :=
  squared_norm_base (logm point_b point_a) point_a

/-- RiemannianCometric.cometric_matrix without a concrete override: raises
NotImplementedError. -/
def cometric_matrix_base {d : ℕ} (_base_point : Vec d) : Except GeomError (Mat d) :=
  Except.error (GeomError.notImplementedError cometric_matrix_msg)

/-- RiemannianCometric.metric_matrix: inverts the result of the abstract
cometric primitive, so the primitive's error propagates. -/
def cometric_metric_matrix {d : ℕ} (inv : Mat d → Mat d) (base_point : Vec d) :
    Except GeomError (Mat d) := do
  let cometric_matrix ← cometric_matrix_base base_point
  pure (inv cometric_matrix)

/-- RiemannianCometric.inner_coproduct on the base class. -/
def inner_coproduct_base {d : ℕ} (covector_1 covector_2 base_point : Vec d) :
    Except GeomError ℚ := do
  let c ← cometric_matrix_base base_point
  pure (∑ i, covector_1 i * (∑ j, c i j * covector_2 j))

/-- RiemannianCometric.hamiltonian on the base class. -/
def hamiltonian_base {d : ℕ} (state : Vec d × Vec d) : Except GeomError ℚ := do
  let ic ← inner_coproduct_base state.2 state.2 state.1
  pure ((1 / 2 : ℚ) * ic)

/-- Concrete witness metric: the constant identity matrix in dimension 1. -/
def mmW : Vec 1 → Mat 1 := fun _ => fun _ _ => 1

/-- Concrete witness logarithmic map: the flat log, point minus base point. -/
def logW : Vec 1 → Vec 1 → Vec 1 := fun point base_point => fun i => point i - base_point i

/-- Concrete witness instantiation of the backend square-root oracle; only
its value at the arguments that actually occur matters for the witnesses. -/
def sqrtW : ℚ → ℚ := fun q => q

/-- A concrete point. -/
def p1W : Vec 1 := fun _ => 0

/-- Another concrete point. -/
def p2W : Vec 1 := fun _ => 3

/-- The exact gradient of hamiltonian mmW: with the constant identity
cometric the Hamiltonian is half the squared momentum, so the gradient with
respect to the paired state (position, momentum) is (0, momentum).  It is
supplied to the spec-modelled value_and_grad as the autodiff engine's
output. -/
def gradHW : Vec 1 × Vec 1 → Vec 1 × Vec 1 := fun state => ((fun _ => 0), state.2)

/-- C3: for all points a and b, squared_dist(a, b) equals
squared_norm(log(point=b, base_point=a), base_point=a) identically, where
logm is the externally supplied logarithmic map; the two expressions are the
same function of a and b. -/
theorem squared_dist_eq_squared_norm_log :
    ∀ (d : ℕ) (metric_matrix : Vec d → Mat d) (logm : Vec d → Vec d → Vec d)
      (a b : Vec d),
      squared_dist metric_matrix logm a b
        = squared_norm metric_matrix (logm b a) a :=
  fun _ _ _ _ _ => rfl

/-- C10: when the input point set contains exactly one point, diameter
returns exactly 0, whatever the metric, logarithmic map and square-root
capability are — the loop over i from 0 to n-2 is empty, so no distance is
evaluated and the running maximum keeps its initial value 0.0. -/
theorem diameter_single_point_zero :
    ∀ (d : ℕ) (metric_matrix : Vec d → Mat d) (logm : Vec d → Vec d → Vec d)
      (sqrtQ : ℚ → ℚ) (p : Vec d),
      diameter metric_matrix logm sqrtQ [p] = 0 :=
  fun _ _ _ _ _ => rfl

/-- C2: christoffels(base_point) equals 0.5 times the entrywise sum of three
contractions of the cometric (inverse metric) matrix against the metric
derivative tensor: term_1 with derivative index layout (m,k,l) and output
layout (i,k,l), term_2 with layout (m,l,k) and output layout (i,l,k), and
term_3 the negated contraction with layout (k,l,m) and output layout (i,k,l);
term_3 already carries its negative sign inside the sum.  The last three
conjuncts unfold each term at entry (i,k,l). -/
theorem christoffels_three_contractions :
    ∀ (d : ℕ) (inv : Mat d → Mat d)
      (jacobian : (Vec d → Mat d) → Vec d → Ten3 d)
      (metric_matrix : Vec d → Mat d) (base_point : Vec d),
      christoffels inv jacobian metric_matrix base_point
          = (fun i k l =>
              (1 / 2 : ℚ) *
                (term_1 (inner_product_inverse_matrix inv metric_matrix base_point)
                    (inner_product_derivative_matrix jacobian metric_matrix base_point) i k l
                  + term_2 (inner_product_inverse_matrix inv metric_matrix base_point)
                      (inner_product_derivative_matrix jacobian metric_matrix base_point) i k l
                  + term_3 (inner_product_inverse_matrix inv metric_matrix base_point)
                      (inner_product_derivative_matrix jacobian metric_matrix base_point) i k l))
        ∧ (∀ (c : Mat d) (dv : Ten3 d) (i k l : Fin d),
            term_1 c dv i k l = ∑ m, c i m * dv m k l)
        ∧ (∀ (c : Mat d) (dv : Ten3 d) (i k l : Fin d),
            term_2 c dv i k l = ∑ m, c i m * dv m k l)
        ∧ (∀ (c : Mat d) (dv : Ten3 d) (i k l : Fin d),
            term_3 c dv i k l = -(∑ m, c i m * dv k l m)) :=
  fun _ _ _ _ _ =>
    ⟨rfl, fun _ _ _ _ _ => rfl, fun _ _ _ _ _ => rfl, fun _ _ _ _ _ => rfl⟩

/-- C7 counterexample: on declared point shape [3] the constructed malformed
point has shape [4] — the same number of axes as the declared shape, its
first axis enlarged by one — not the declared shape extended by one extra
trailing axis as the claim states. -/
theorem test_not_belongs_shape_counterexample :
    not_belongs_point_shape [3] = [4]
      ∧ ¬(not_belongs_point_shape [3]).length = [3].length + 1
      ∧ (not_belongs_point_shape [3]).take 1 ≠ [3] := by
  refine ⟨rfl, ?_, ?_⟩ <;> decide

/-- C7 (amended): for every n_points the framework check test_not_belongs
constructs n_points all-ones arrays whose shape is the space's declared
point shape with its first axis enlarged by one (same number of axes,
deliberately malformed), prefixed by the batch axis [n_points] when n_points
is nonzero, and asserts the membership predicate returns false for every one
of them (the expected vector is all false). -/
theorem test_not_belongs_first_axis_enlarged :
    ∀ (s0 : ℕ) (rest : List ℕ) (n_points : ℕ),
      not_belongs_full_shape (s0 :: rest) n_points
          = (if n_points = 0 then [] else [n_points]) ++ (s0 + 1) :: rest
        ∧ (not_belongs_point_shape (s0 :: rest)).length = (s0 :: rest).length
        ∧ not_belongs_expected n_points = List.replicate n_points false :=
  fun _ _ _ => ⟨rfl, rfl, rfl⟩

/-- C9: invoking the abstract primitive metric_matrix on the base
RiemannianMetric, or cometric_matrix on the base RiemannianCometric, without
a concrete override produces a NotImplementedError whose message names the
quantity that could not be computed, and every operation depending on the
primitive (matrix inversion, inner product, squared norm, squared distance,
the cometric-side metric matrix, inner coproduct and Hamiltonian) fails with
exactly that error — no fallback computation exists. -/
theorem abstract_primitives_not_implemented :
    ∀ (d : ℕ) (inv : Mat d → Mat d) (logm : Vec d → Vec d → Vec d)
      (a b v pa pb bp : Vec d),
      metric_matrix_base bp
          = Except.error (GeomError.notImplementedError metric_matrix_msg)
        ∧ metric_matrix_msg
            = "The computation of the " ++ "metric matrix" ++ " is not implemented."
        ∧ inner_product_inverse_matrix_base inv bp
            = Except.error (GeomError.notImplementedError metric_matrix_msg)
        ∧ inner_product_base a b bp
            = Except.error (GeomError.notImplementedError metric_matrix_msg)
        ∧ squared_norm_base v bp
            = Except.error (GeomError.notImplementedError metric_matrix_msg)
        ∧ squared_dist_base logm pa pb
            = Except.error (GeomError.notImplementedError metric_matrix_msg)
        ∧ cometric_matrix_base bp
            = Except.error (GeomError.notImplementedError cometric_matrix_msg)
        ∧ cometric_matrix_msg
            = "The computation of the " ++ "cometric matrix" ++ " is not implemented."
        ∧ cometric_metric_matrix inv bp
            = Except.error (GeomError.notImplementedError cometric_matrix_msg)
        ∧ inner_coproduct_base a b bp
            = Except.error (GeomError.notImplementedError cometric_matrix_msg)
        ∧ hamiltonian_base (bp, v)
            = Except.error (GeomError.notImplementedError cometric_matrix_msg) :=
  fun _ _ _ _ _ _ _ _ _ =>
    ⟨rfl, rfl, rfl, rfl, rfl, rfl, rfl, rfl, rfl, rfl, rfl⟩

/-- C1: evaluation of the code at a failing input.  With the constant
identity cometric in dimension 1, position (1) and momentum (2), the
Hamiltonian value is 2, its gradient with respect to position is (0) and
with respect to momentum is (2).  Hamiltonian_equation destructures the
(value, gradient) pair of value_and_grad as (H_q, H_p), so it returns the
full state gradient ((0), (2)) as first component and the negated scalar
Hamiltonian value -2 as second component — not the claimed pair
(dH/dmomentum, -dH/dposition) = ((2), (0)). -/
theorem Hamiltonian_equation_returns_grad_and_value :
    Hamiltonian_equation mmW gradHW (fun _ => 1) (fun _ => 2)
        = (((fun _ => 0), (fun _ => 2)), -2)
      ∧ (Hamiltonian_equation mmW gradHW (fun _ => 1) (fun _ => 2)).2
          = -(hamiltonian mmW ((fun _ => 1), (fun _ => 2)))
      ∧ hamiltonian mmW ((fun _ => 1), (fun _ => 2)) = 2 := by
  refine ⟨?_, rfl, ?_⟩
  · simp [Hamiltonian_equation, value_and_grad, gradHW, hamiltonian,
      inner_coproduct, mmW, Fin.sum_univ_one]
  · simp [hamiltonian, inner_coproduct, mmW, Fin.sum_univ_one]

/-- C5: evaluation of the integrand the code hands to the integrator, at the
failing input base_point (0), cotangent_vec (1) with the constant identity
cometric.  Hamiltonian_equation evaluates to (((0), (1)), -(1/2)) — a
(state gradient, scalar) pair, not a (position velocity, momentum velocity)
state that the spec-modelled integrator's euler update state + dt * force
could consume — so no valid trajectory exists.  The remaining conjuncts
record the parts of the claim the code does satisfy: the default step count
N_STEPS is 10, and for any integrand of the contractual vector-field type,
exp forms the initial state (base_point, cotangent_vec), integrates, and
returns the last entry of the position trajectory. -/
theorem exp_integrand_shape_mismatch :
    Hamiltonian_equation mmW gradHW (fun _ => 0) (fun _ => 1)
        = (((fun _ => 0), (fun _ => 1)), -(1 / 2))
      ∧ N_STEPS = 10
      ∧ (∀ (force : Vec 1 → Vec 1 → Vec 1 × Vec 1) (n_steps : ℕ) (step : Scheme),
          exp force (fun _ => 1) (fun _ => 0) n_steps step
            = ((integrate force ((fun _ => 0), (fun _ => 1)) n_steps step).1).getLastD
                (fun _ => 0)) := by
  refine ⟨?_, rfl, fun _ _ _ => rfl⟩
  simp [Hamiltonian_equation, value_and_grad, gradHW, hamiltonian,
    inner_coproduct, mmW, Fin.sum_univ_one]

/-- The flattened pairwise-distance sequence of n points has length
n(n+1)/2. -/
theorem pairwise_dist_list_length {d : ℕ} (metric_matrix : Vec d → Mat d)
    (logm : Vec d → Vec d → Vec d) (sqrtQ : ℚ → ℚ) :
    ∀ ps : List (Vec d),
      (pairwise_dist_list metric_matrix logm sqrtQ ps).length
        = ps.length * (ps.length + 1) / 2 := by
  intro ps
  induction ps with
  | nil => simp [pairwise_dist_list]
  | cons x xs ih =>
    rw [pairwise_dist_list, List.length_append, List.length_map, ih,
      List.length_cons]
    have h1 : (xs.length + 1) * (xs.length + 1 + 1)
        = xs.length * (xs.length + 1) + 2 * (xs.length + 1) := by ring
    obtain ⟨k, hk⟩ := Nat.even_mul_succ_self xs.length
    rw [h1, hk]
    omega

/-- Row-major upper-triangular lookup into the flattened pairwise-distance
sequence recovers the distance of the corresponding pair of points. -/
theorem pairwise_dist_list_lookup {d : ℕ} (metric_matrix : Vec d → Mat d)
    (logm : Vec d → Vec d → Vec d) (sqrtQ : ℚ → ℚ) :
    ∀ (ps : List (Vec d)) (i j : ℕ), i ≤ j → j < ps.length →
      triu_lookup (pairwise_dist_list metric_matrix logm sqrtQ ps) ps.length i j
        = dist metric_matrix logm sqrtQ (ps.getD i (fun _ => 0))
            (ps.getD j (fun _ => 0)) := by
  intro ps
  induction ps with
  | nil => intro i j _ hj; simp at hj
  | cons x xs ih =>
    intro i j hij hj
    cases i with
    | zero =>
      show (pairwise_dist_list metric_matrix logm sqrtQ (x :: xs)).getD j 0 = _
      rw [pairwise_dist_list, List.getD_append _ _ _ _ (by simpa using hj),
        List.getD_eq_getElem _ _ (by simpa using hj), List.getElem_map,
        List.getD_cons_zero, List.getD_eq_getElem _ _ hj]
    | succ i' =>
      cases j with
      | zero => exact absurd hij (by omega)
      | succ j' =>
        show triu_lookup
            ((pairwise_dist_list metric_matrix logm sqrtQ (x :: xs)).drop
              (xs.length + 1)) xs.length i' j' = _
        have hdrop :
            (pairwise_dist_list metric_matrix logm sqrtQ (x :: xs)).drop
                (xs.length + 1)
              = pairwise_dist_list metric_matrix logm sqrtQ xs := by
          rw [pairwise_dist_list]
          exact List.drop_left' (by simp)
        rw [hdrop, List.getD_cons_succ, List.getD_cons_succ]
        exact ih i' j' (by omega)
          (by simp only [List.length_cons] at hj; omega)

/-- C4: for every sequence of points whose derived distance is symmetric and
zero on the diagonal, dist_pairwise flattens the n(n+1)/2 distances of the
pairs i <= j (including the zero self-distances) and expands them through
the vector-to-symmetric-matrix embedding into a full symmetric n x n matrix
D with D i j equal to the distance between points i and j for all i, j, and
D i i equal to 0. -/
theorem dist_pairwise_symmetric_matrix :
    ∀ (d : ℕ) (metric_matrix : Vec d → Mat d) (logm : Vec d → Vec d → Vec d)
      (sqrtQ : ℚ → ℚ) (point : List (Vec d)),
      (∀ a b, dist metric_matrix logm sqrtQ a b = dist metric_matrix logm sqrtQ b a) →
      (∀ a, dist metric_matrix logm sqrtQ a a = 0) →
      (pairwise_dist_list metric_matrix logm sqrtQ point).length
          = point.length * (point.length + 1) / 2
        ∧ (∀ i j, i < point.length → j < point.length →
            dist_pairwise metric_matrix logm sqrtQ point i j
              = dist metric_matrix logm sqrtQ (point.getD i (fun _ => 0))
                  (point.getD j (fun _ => 0)))
        ∧ (∀ i, i < point.length →
            dist_pairwise metric_matrix logm sqrtQ point i i = 0) := by
  intro d metric_matrix logm sqrtQ point hsym hzero
  have hentry : ∀ i j, i < point.length → j < point.length →
      dist_pairwise metric_matrix logm sqrtQ point i j
        = dist metric_matrix logm sqrtQ (point.getD i (fun _ => 0))
            (point.getD j (fun _ => 0)) := by
    intro i j hi hj
    by_cases hij : i ≤ j
    · unfold dist_pairwise sym_from_vector
      rw [if_pos hij]
      exact pairwise_dist_list_lookup metric_matrix logm sqrtQ point i j hij hj
    · unfold dist_pairwise sym_from_vector
      rw [if_neg hij,
        pairwise_dist_list_lookup metric_matrix logm sqrtQ point j i (by omega) hi]
      exact hsym _ _
  refine ⟨pairwise_dist_list_length metric_matrix logm sqrtQ point, hentry, ?_⟩
  intro i hi
  rw [hentry i i hi hi]
  exact hzero _

/-- The witness flat distance is symmetric. -/
theorem distW_symm :
    ∀ a b : Vec 1, dist mmW logW sqrtW a b = dist mmW logW sqrtW b a := by
  intro a b
  simp [dist, squared_dist, squared_norm, inner_product_at, inner_product_elem,
    mmW, logW, sqrtW, Fin.sum_univ_one]
  ring

/-- The witness flat distance of a point to itself is zero. -/
theorem distW_self : ∀ a : Vec 1, dist mmW logW sqrtW a a = 0 := by
  intro a
  simp [dist, squared_dist, squared_norm, inner_product_at, inner_product_elem,
    mmW, logW, sqrtW, Fin.sum_univ_one]

/-- C4 witness: the pairwise-distance matrix of the concrete two-point
configuration under the flat metric has the mirrored distance at (1,0) and
zero at (1,1). -/
theorem dist_pairwise_symmetric_matrix_witness :
    dist_pairwise mmW logW sqrtW [p1W, p2W] 1 0 = dist mmW logW sqrtW p2W p1W
      ∧ dist_pairwise mmW logW sqrtW [p1W, p2W] 1 1 = 0 := by
  have h := dist_pairwise_symmetric_matrix 1 mmW logW sqrtW [p1W, p2W]
    distW_symm distW_self
  exact ⟨h.2.1 1 0 (by decide) (by decide), h.2.2 1 (by decide)⟩

/-- The batched grad is the per-batch-element application of the unbatched
grad. -/
theorem grad_batched_eq_zipWith {d : ℕ} (logm : Vec d → Vec d → Vec d)
    (metric_matrix : Vec d → Mat d) :
    ∀ y_pred y_true : List (Vec d),
      grad_batched logm metric_matrix y_pred y_true
        = List.zipWith (grad logm metric_matrix) y_pred y_true := by
  intro y_pred
  induction y_pred with
  | nil => intro y_true; rfl
  | cons yp yps ih =>
    intro y_true
    cases y_true with
    | nil => rfl
    | cons yt yts =>
      have hcons : grad_batched logm metric_matrix (yp :: yps) (yt :: yts)
          = grad logm metric_matrix yp yt
              :: grad_batched logm metric_matrix yps yts := rfl
      rw [hcons, ih yts]
      rfl

/-- C6: grad computes tangent_vec = log(base_point=y_pred, point=y_true),
scales it by -2, and contracts the result against the transpose of the
metric matrix at y_pred via the contraction i,ij->i (axes (1,0) on an
unbatched matrix); on batched input (matrix carrying a batch axis, axes
(0,2,1)) the same contraction is applied per batch element, and for equal
batch sizes the output carries the batch length of y_pred, i.e. it is shaped
like y_pred. -/
theorem grad_contracts_transposed_metric :
    ∀ (d : ℕ) (logm : Vec d → Vec d → Vec d) (metric_matrix : Vec d → Mat d)
      (y_pred y_true : Vec d),
      grad logm metric_matrix y_pred y_true
          = (fun i => -2 * logm y_true y_pred i * ∑ j, metric_matrix y_pred j i)
        ∧ (∀ y_preds y_trues : List (Vec d),
            grad_batched logm metric_matrix y_preds y_trues
              = List.zipWith (grad logm metric_matrix) y_preds y_trues)
        ∧ (∀ y_preds y_trues : List (Vec d), y_preds.length = y_trues.length →
            (grad_batched logm metric_matrix y_preds y_trues).length
              = y_preds.length) := by
  intro d logm metric_matrix y_pred y_true
  refine ⟨?_, grad_batched_eq_zipWith logm metric_matrix, ?_⟩
  · funext i
    show (∑ j, -2 * logm y_true y_pred i * transpose (metric_matrix y_pred) i j)
        = -2 * logm y_true y_pred i * ∑ j, metric_matrix y_pred j i
    rw [← Finset.mul_sum]
    rfl
  · intro y_preds y_trues hlen
    rw [grad_batched_eq_zipWith logm metric_matrix, List.length_zipWith]
    omega

/-- C6 witness: on a concrete one-element batch the batched grad is shaped
like y_pred. -/
theorem grad_contracts_transposed_metric_witness :
    (grad_batched logW mmW [p1W] [p2W]).length = 1 :=
  (grad_contracts_transposed_metric 1 logW mmW p1W p2W).2.2 [p1W] [p2W] rfl

/-- A batch of one broadcasts across the other operand (left operand
single). -/
theorem broadcast2_single_left {α β γ : Type} (f : α → β → γ) (x : α) :
    ∀ ys : List β, broadcast2 f [x] ys = ys.map (f x) := by
  intro ys
  cases ys with
  | nil => rfl
  | cons y ys => cases ys <;> rfl

/-- A batch of one broadcasts across the other operand (right operand
single). -/
theorem broadcast2_single_right {α β γ : Type} (f : α → β → γ) (y : β) :
    ∀ xs : List α, broadcast2 f xs [y] = xs.map (fun x => f x y) := by
  intro xs
  rcases xs with _ | ⟨x, _ | ⟨x2, xs⟩⟩ <;> rfl

/-- Equal-length batches combine elementwise. -/
theorem broadcast2_eq_zipWith {α β γ : Type} (f : α → β → γ) :
    ∀ (xs : List α) (ys : List β), xs.length = ys.length →
      broadcast2 f xs ys = List.zipWith f xs ys := by
  intro xs ys h
  rcases xs with _ | ⟨x, _ | ⟨x2, xs⟩⟩ <;> rcases ys with _ | ⟨y, _ | ⟨y2, ys⟩⟩ <;>
    first
    | rfl
    | simp at h

/-- C8: inner_product returns a value carrying an explicit batch axis even
for fully unbatched input (a batch of length one); it contracts
tangent_vec_a against the columns of the metric matrix at the base point and
then against tangent_vec_b, and an unbatched operand broadcasts across the
other operand's batch, equal-length batches combining elementwise. -/
theorem inner_product_batched_contract :
    ∀ (d : ℕ) (metric_matrix : Vec d → Mat d) (base_point a b : Vec d)
      (as bs : List (Vec d)),
      inner_product metric_matrix (BatchArg.single a) (BatchArg.single b) base_point
          = [[inner_product_elem (metric_matrix base_point) a b]]
        ∧ (inner_product metric_matrix (BatchArg.single a) (BatchArg.single b)
            base_point).length = 1
        ∧ inner_product metric_matrix (BatchArg.single a) (BatchArg.batch bs) base_point
            = bs.map (fun y => [inner_product_elem (metric_matrix base_point) a y])
        ∧ inner_product metric_matrix (BatchArg.batch as) (BatchArg.single b) base_point
            = as.map (fun x => [inner_product_elem (metric_matrix base_point) x b])
        ∧ (as.length = bs.length →
            inner_product metric_matrix (BatchArg.batch as) (BatchArg.batch bs)
                base_point
              = List.zipWith
                  (fun x y => [inner_product_elem (metric_matrix base_point) x y])
                  as bs) := by
  intro d metric_matrix base_point a b as bs
  refine ⟨rfl, rfl, ?_, ?_, ?_⟩
  · unfold inner_product
    simp only [normalizeArg, broadcast2_single_left, List.map_cons, List.map_nil,
      List.map_map]
    rfl
  · unfold inner_product
    simp only [normalizeArg, broadcast2_single_right, List.map_map]
    rfl
  · intro hlen
    unfold inner_product
    simp only [normalizeArg]
    rw [broadcast2_single_right,
      broadcast2_eq_zipWith _ _ _ (by simpa using hlen),
      List.zipWith_map_left, List.map_zipWith]
    rfl

/-- C8 witness: the theorem applied to concrete equal-length one-element
batches. -/
theorem inner_product_batched_contract_witness :
    inner_product mmW (BatchArg.batch [p1W]) (BatchArg.batch [p2W]) p1W
      = List.zipWith (fun x y => [inner_product_elem (mmW p1W) x y]) [p1W] [p2W] :=
  (inner_product_batched_contract 1 mmW p1W p1W p2W [p1W] [p2W]).2.2.2.2 rfl

end Geomstats
